import Mathlib

/-!
Verification of the retrieval-augmented-generation core of this repository.

The development shallowly embeds the three algorithmic pieces the claims
are about:

* `DocumentProcessor._chunk_text` (backend/document_processor.py):
  whitespace normalization, the short-text path, the sliding-window loop
  with its sentence-boundary search, the minimum-chunk filter, the
  forced-progress rule and the 1000-iteration safety break.
* `VectorStore.add_documents` (backend/vector_store.py): batch embedding,
  id assignment `"<docId>_<i>"`, metadata tagging and the store write.
* `ChatEngine.chat_with_context` (backend/llm.py): optional retrieval,
  context assembly and source-list construction.

Python strings are modelled as `List Char`, indices as `Nat`.  Python's
`end - overlap` can be negative; `Nat` subtraction clamps at `0` instead,
but both values are `≤ start`, so the forced-progress rule `new_start =
start + 1` fires in exactly the same cases and the loop states coincide.
Fallible operations return `Except`.  Embedding vectors are a type
parameter (their numeric content never matters for these claims).
-/

/-- Python's `\s` character class: the whitespace characters recognized by
`re.sub(r'\s+', ' ', text)`. -/
def isPySpace (c : Char) : Bool :=
  c = ' ' || c = '\t' || c = '\n' || c = '\r' || c = '\x0b' || c = '\x0c'

/-- Replace every maximal run of whitespace by a single `' '`, as
`re.sub(r'\s+', ' ', text)` does (document_processor.py line 219). -/
def collapseWs : List Char → List Char
  | [] => []
  | c :: rest =>
    if isPySpace c then
      match rest with
      | [] => [' ']
      | d :: rest2 =>
        if isPySpace d then collapseWs (d :: rest2) else ' ' :: collapseWs (d :: rest2)
    else c :: collapseWs rest

/-- Python `str.strip()`: drop leading and trailing whitespace. -/
def strip (l : List Char) : List Char :=
  ((l.dropWhile isPySpace).reverse.dropWhile isPySpace).reverse

/-- The cleaned text `re.sub(r'\s+', ' ', text).strip()`
(document_processor.py line 219). -/
def normalizeWs (l : List Char) : List Char :=
  strip (collapseWs l)

/-- Python pySlice `text[s:e]` (clamping at both ends, empty when `e ≤ s`). -/
def pySlice (t : List Char) (s e : Nat) : List Char :=
  (t.take e).drop s

/-- Does `sub` occur in `t` starting at position `p`?  (Helper for
Python's `str.rfind`.) -/
def subMatch : List Char → List Char → Bool
  | [], _ => true
  | _ :: _, [] => false
  | a :: as, b :: bs => a == b && subMatch as bs

/-- Occurrence test at an absolute position. -/
def matchesAt (t sub : List Char) (p : Nat) : Bool :=
  subMatch sub (t.drop p)

/-- Scan candidate positions `s + c - 1, s + c - 2, …, s` from the top and
return the first (hence rightmost) match. -/
def rfindAux (t sub : List Char) (s : Nat) : Nat → Option Nat
  | 0 => none
  | c + 1 => if matchesAt t sub (s + c) then some (s + c) else rfindAux t sub s c

/-- Python `text.rfind(sub, s, e)`: the greatest `p` with `s ≤ p`,
`p + sub.length ≤ e` and `sub` occurring in `t` at `p`; `none` when there
is no such `p` (Python returns `-1`).  (document_processor.py line 245.) -/
def rfind (t sub : List Char) (s e : Nat) : Option Nat :=
  rfindAux t sub s (e + 1 - sub.length - s)

/-- The boundary markers `['. ', '! ', '? ', '\n']` in the order the code
tries them (document_processor.py line 244). -/
def seps : List (List Char) := [['.', ' '], ['!', ' '], ['?', ' '], ['\n']]

/-- The `for sep in [...]` loop of document_processor.py lines 244-248:
the first marker with any match wins and `end` becomes `last_sep +
len(sep)`; if none matches, `end` is unchanged. -/
def boundaryLoop (t : List Char) (s e : Nat) : List (List Char) → Nat
  | [] => e
  | sep :: rest =>
    match rfind t sep s e with
    | some p => p + sep.length
    | none => boundaryLoop t s e rest

/-- The adjusted chunk end produced by the sentence-boundary search. -/
def findBoundary (t : List Char) (s e : Nat) : Nat :=
  boundaryLoop t s e seps

/-- Modelled from the spec: the boundary search as §4.1 words it — the
markers `". "`, `"! "`, `"? "`, `"\n"` are tried in that priority order,
the first marker type with any occurrence in `[s, e)` wins with its
rightmost occurrence `p`, giving `p + len(marker)`; otherwise `e` is
unchanged.  Compared against `findBoundary`, the embedding of the code. -/
def findBoundarySpec (t : List Char) (s e : Nat) : Nat :=
  match rfind t ['.', ' '] s e with
  | some p => p + 2
  | none =>
    match rfind t ['!', ' '] s e with
    | some p => p + 2
    | none =>
      match rfind t ['?', ' '] s e with
      | some p => p + 2
      | none =>
        match rfind t ['\n'] s e with
        | some p => p + 1
        | none => e

/-- The advance rule of document_processor.py lines 254-258:
`new_start = end - overlap if end < len(text) else end`, then
`new_start = start + 1` whenever that value would not move forward. -/
def nextStart (ov len s e : Nat) : Nat :=
  let ns0 := if e < len then e - ov else e
  if ns0 ≤ s then s + 1 else ns0

/-- The candidate end of one loop pass: `end = start + chunk_size`,
boundary-adjusted only when `end < len(text)`
(document_processor.py lines 239-248). -/
def chunkEnd (cs : Nat) (t : List Char) (start : Nat) : Nat :=
  let e0 := start + cs
  if e0 < t.length then findBoundary t start e0 else e0

/-- The chunk produced by one loop pass: `text[start:end].strip()`
(document_processor.py line 250). -/
def chunkPiece (cs : Nat) (t : List Char) (start : Nat) : List Char :=
  strip (pySlice t start (chunkEnd cs t start))

/-- The next start offset of one loop pass. -/
def chunkNext (cs ov : Nat) (t : List Char) (start : Nat) : Nat :=
  nextStart ov t.length start (chunkEnd cs t start)

/-- The `while start < len(text)` loop of `_chunk_text`
(document_processor.py lines 230-262).  `fuel` counts the remaining
allowed passes: the code increments `iteration` and breaks once it
exceeds 1000, so the loop body runs at most 1000 times and the top-level
call uses `fuel = 1000`.  A pass emits `text[start:end].strip()` only when
it is nonempty and longer than 10 characters. -/
def chunkLoop (cs ov : Nat) (t : List Char) : Nat → Nat → List (List Char)
  | 0, _ => []
  | fuel + 1, start =>
    if start < t.length then
      (if ¬(chunkPiece cs t start).isEmpty ∧ 10 < (chunkPiece cs t start).length then
        [chunkPiece cs t start]
      else []) ++ chunkLoop cs ov t fuel (chunkNext cs ov t start)
    else []

/-- `DocumentProcessor._chunk_text` (document_processor.py lines 214-265):
clean the text, return it whole when it fits in one chunk (`[text] if
text else []`), otherwise run the sliding-window loop with the
1000-iteration safety break. -/
def chunkText (cs ov : Nat) (t : List Char) : List (List Char) :=
  let t2 := normalizeWs t
  if t2.length ≤ cs then (if t2.isEmpty then [] else [t2])
  else chunkLoop cs ov t2 1000 0

/-- The same loop without the 1000-iteration safety break; total because
`chunkNext` strictly increases the start offset.  Used to ask whether the
safety break can silently truncate the result. -/
def chunkLoopU (cs ov : Nat) (t : List Char) (start : Nat) : List (List Char) :=
  if h : start < t.length then
    (if ¬(chunkPiece cs t start).isEmpty ∧ 10 < (chunkPiece cs t start).length then
      [chunkPiece cs t start]
    else []) ++ chunkLoopU cs ov t (chunkNext cs ov t start)
  else []
termination_by t.length - start
decreasing_by
  have hlt : start < chunkNext cs ov t start := by
    unfold chunkNext nextStart
    dsimp only
    by_cases hc : chunkEnd cs t start < t.length <;> simp only [hc, if_true, if_false] <;>
      split <;> omega
  omega

/-- `_chunk_text` with the unbounded loop in place of the capped one. -/
def chunkTextU (cs ov : Nat) (t : List Char) : List (List Char) :=
  let t2 := normalizeWs t
  if t2.length ≤ cs then (if t2.isEmpty then [] else [t2])
  else chunkLoopU cs ov t2 0

/-- Re-assembly of a chunk sequence: the first chunk whole, every later
chunk with its leading `ov`-character overlap region removed. -/
def joinDrop (ov : Nat) (l : List (List Char)) : List Char :=
  (l.map (fun c => c.drop ov)).flatten

/-- Concatenation of chunks minus overlap regions (§8 of the spec). -/
def reassemble (ov : Nat) : List (List Char) → List Char
  | [] => []
  | c :: rest => c ++ joinDrop ov rest

/-- The input contains none of the boundary markers as a substring. -/
def markerFree (t : List Char) : Prop :=
  ∀ sep ∈ seps, ∀ i, matchesAt t sep i = false

/-- Metadata values stored in chunk metadata records (strings and ints
are the only values the code puts there). -/
inductive MVal where
  | str (s : String)
  | int (z : Int)
deriving DecidableEq

/-- A metadata record: a Python dict modelled as an association list. -/
abbrev Metadata := List (String × MVal)

/-- Python `metadata[k] = v`: set key `k`, replacing any previous
binding. -/
def setMeta (m : Metadata) (k : String) (v : MVal) : Metadata :=
  (k, v) :: m.filter (fun p => p.1 != k)

/-- One persisted tuple of the vector store: (embedding, document text,
metadata, id), as passed to `collection.add` (vector_store.py
lines 44-49). -/
abbrev ChromaEntry (α : Type) := α × String × Metadata × String

/-- Zip the four parallel argument lists of `collection.add` into stored
tuples. -/
def zip4 {α β γ δ : Type} : List α → List β → List γ → List δ → List (α × β × γ × δ)
  | a :: as, b :: bs, c :: cs, d :: ds => (a, b, c, d) :: zip4 as bs cs ds
  | _, _, _, _ => []

/-- `collection.add(embeddings, documents, metadatas, ids)`: the backing
store persists the tuples; it rejects argument lists of mismatched
lengths (as ChromaDB does). -/
def collectionAdd {α : Type} (store : List (ChromaEntry α)) (embs : List α)
    (docs : List String) (metas : List Metadata) (ids : List String) :
    Except String (List (ChromaEntry α)) :=
  if embs.length = docs.length ∧ metas.length = docs.length ∧ ids.length = docs.length then
    Except.ok (store ++ zip4 embs docs metas ids)
  else Except.error "length mismatch"

/-- The chunk id `f"{doc_id}_{i}"` (vector_store.py line 38). -/
def mkChunkId (docId : Int) (i : Nat) : String :=
  toString docId ++ "_" ++ toString i

/-- `VectorStore.add_documents` (vector_store.py lines 30-55): embed the
texts in one batch, build ids `"<docId>_<i>"` for `i` in insertion order,
set `document_id` in every metadata record, write to the collection and
return `len(texts)`.  Any failure propagates (`raise`). -/
def addDocuments {α : Type} (embedBatch : List String → Except String (List α))
    (store : List (ChromaEntry α)) (texts : List String)
    (metadatas : List Metadata) (docId : Int) :
    Except String (List (ChromaEntry α) × Nat) :=
  match embedBatch texts with
  | Except.error e => Except.error e
  | Except.ok embeddings =>
    let ids := (List.range texts.length).map (fun i => mkChunkId docId i)
    let metadatas2 := metadatas.map (fun m => setMeta m "document_id" (MVal.int docId))
    match collectionAdd store embeddings texts metadatas2 ids with
    | Except.error e => Except.error e
    | Except.ok store2 => Except.ok (store2, texts.length)

/-- One ranked search result as returned by `VectorStore.search`:
content, metadata and similarity score.  The score type is a parameter
(the code stores Python floats; no claim depends on their arithmetic). -/
structure SearchRes (σ : Type) where
  content : String
  metadata : Metadata
  score : σ
deriving DecidableEq

/-- One entry of the `sources` list returned by
`ChatEngine.chat_with_context`. -/
structure SourceOut (σ : Type) where
  content : String
  metadata : Metadata
  score : σ
deriving DecidableEq

/-- The value returned by `ChatEngine.chat_with_context`. -/
structure ChatOut (σ : Type) where
  response : String
  sources : List (SourceOut σ)
deriving DecidableEq

/-- Python `s[:n]`: the first `n` characters of a string. -/
def pyTake (s : String) (n : Nat) : String :=
  String.mk (s.data.take n)

/-- The numbered context fragment `f"[{i+1}] {content}"`
(llm.py line 132). -/
def contextFragment {σ : Type} (i : Nat) (r : SearchRes σ) : String :=
  "[" ++ toString (i + 1) ++ "] " ++ r.content

/-- One `sources` entry: content truncated to 200 characters plus an
ellipsis, metadata and score carried over (llm.py lines 133-137). -/
def mkSource {σ : Type} (r : SearchRes σ) : SourceOut σ :=
  ⟨pyTake r.content 200 ++ "...", r.metadata, r.score⟩

/-- `ChatEngine.chat_with_context` (llm.py lines 114-148): when
`use_context` is set, search; when results exist, build the blank-line
separated numbered context and the sources list in rank order; finally
generate with the (possibly absent) context. -/
def chatWithContext {σ : Type} (search : String → Nat → List (SearchRes σ))
    (generate : String → Option String → String) (message : String)
    (useContext : Bool) (topK : Nat) : ChatOut σ :=
  if useContext then
    let searchResults := search message topK
    if searchResults.isEmpty then
      ⟨generate message none, []⟩
    else
      let contextParts := searchResults.enum.map (fun p => contextFragment p.1 p.2)
      let sources := searchResults.map mkSource
      let context := String.intercalate "\n\n" contextParts
      ⟨generate message (some context), sources⟩
  else
    ⟨generate message none, []⟩

theorem dropWhile_all_false {p : Char → Bool} {l : List Char}
    (h : ∀ c ∈ l, p c = false) : l.dropWhile p = l := by
  cases l with
  | nil => rfl
  | cons c rest => simp [List.dropWhile_cons, h c (List.mem_cons_self c rest)]

theorem strip_eq_self_of {l : List Char} (h : ∀ c ∈ l, isPySpace c = false) :
    strip l = l := by
  unfold strip
  rw [dropWhile_all_false h, dropWhile_all_false (fun c hc => h c (List.mem_reverse.mp hc)),
    List.reverse_reverse]

theorem mem_strip {c : Char} {l : List Char} (h : c ∈ strip l) : c ∈ l := by
  unfold strip at h
  rw [List.mem_reverse] at h
  have h2 := (List.dropWhile_sublist isPySpace).subset h
  rw [List.mem_reverse] at h2
  exact (List.dropWhile_sublist isPySpace).subset h2

theorem length_strip_le (l : List Char) : (strip l).length ≤ l.length := by
  unfold strip
  rw [List.length_reverse]
  calc ((l.dropWhile isPySpace).reverse.dropWhile isPySpace).length
      ≤ (l.dropWhile isPySpace).reverse.length := (List.dropWhile_sublist _).length_le
    _ = (l.dropWhile isPySpace).length := List.length_reverse _
    _ ≤ l.length := (List.dropWhile_sublist _).length_le

theorem dropWhile_of_head {p : Char → Bool} {l : List Char}
    (h : ∀ a, l.head? = some a → p a = false) : l.dropWhile p = l := by
  cases l with
  | nil => rfl
  | cons c rest => simp [List.dropWhile_cons, h c rfl]

theorem dropWhile_head?_false {p : Char → Bool} {l : List Char} {a : Char}
    (h : (l.dropWhile p).head? = some a) : p a = false := by
  induction l with
  | nil => simp at h
  | cons c rest ih =>
    rw [List.dropWhile_cons] at h
    by_cases hp : p c
    · rw [if_pos hp] at h
      exact ih h
    · rw [if_neg hp] at h
      simp at h
      rw [← h]
      simpa using hp

theorem dropWhile_getLast?_eq {p : Char → Bool} {l : List Char}
    (h : l.dropWhile p ≠ []) : (l.dropWhile p).getLast? = l.getLast? := by
  induction l with
  | nil => simp at h
  | cons c rest ih =>
    rw [List.dropWhile_cons]
    by_cases hp : p c
    · rw [List.dropWhile_cons, if_pos hp] at h
      rw [if_pos hp, ih h]
      cases rest with
      | nil => simp at h
      | cons d r2 => rw [List.getLast?_cons_cons]
    · rw [if_neg hp]

theorem strip_idem (l : List Char) : strip (strip l) = strip l := by
  have hA : (strip l).dropWhile isPySpace = strip l := by
    apply dropWhile_of_head
    intro a ha
    unfold strip at ha
    rw [List.head?_reverse] at ha
    by_cases hnil : (l.dropWhile isPySpace).reverse.dropWhile isPySpace = []
    · rw [hnil] at ha
      simp at ha
    · rw [dropWhile_getLast?_eq hnil, List.getLast?_reverse] at ha
      exact dropWhile_head?_false ha
  have hB : ((strip l).reverse).dropWhile isPySpace = (strip l).reverse := by
    apply dropWhile_of_head
    intro a ha
    unfold strip at ha
    rw [List.reverse_reverse] at ha
    exact dropWhile_head?_false ha
  show ((((strip l).dropWhile isPySpace).reverse).dropWhile isPySpace).reverse = strip l
  rw [hA, hB, List.reverse_reverse]

theorem collapseWs_eq_self {l : List Char} (h : ∀ c ∈ l, isPySpace c = false) :
    collapseWs l = l := by
  induction l with
  | nil => rfl
  | cons c rest ih =>
    have hc : isPySpace c = false := h c (List.mem_cons_self c rest)
    cases rest with
    | nil => simp [collapseWs, hc]
    | cons d rest2 =>
      have := ih (fun x hx => h x (List.mem_cons_of_mem c hx))
      simp [collapseWs, hc, this]

theorem mem_collapseWs {c : Char} {l : List Char} (h : c ∈ collapseWs l) :
    c = ' ' ∨ (c ∈ l ∧ isPySpace c = false) := by
  induction l with
  | nil => simp [collapseWs] at h
  | cons a rest ih =>
    cases rest with
    | nil =>
      by_cases ha : isPySpace a
      · simp [collapseWs, ha] at h
        exact Or.inl h
      · simp [collapseWs, ha] at h
        refine Or.inr ⟨?_, ?_⟩
        · rw [h]
          exact List.mem_cons_self _ _
        · rw [h]
          simpa using ha
    | cons d rest2 =>
      by_cases ha : isPySpace a
      · by_cases hd : isPySpace d
        · rw [show collapseWs (a :: d :: rest2) = collapseWs (d :: rest2) by
            simp [collapseWs, ha, hd]] at h
          rcases ih h with h1 | h2
          · exact Or.inl h1
          · exact Or.inr ⟨List.mem_cons_of_mem a h2.1, h2.2⟩
        · rw [show collapseWs (a :: d :: rest2) = ' ' :: collapseWs (d :: rest2) by
            simp [collapseWs, ha, hd]] at h
          rcases List.mem_cons.mp h with h1 | h2
          · exact Or.inl h1
          · rcases ih h2 with h3 | h4
            · exact Or.inl h3
            · exact Or.inr ⟨List.mem_cons_of_mem a h4.1, h4.2⟩
      · rw [show collapseWs (a :: d :: rest2) = a :: collapseWs (d :: rest2) by
          simp [collapseWs, ha]] at h
        rcases List.mem_cons.mp h with h1 | h2
        · subst h1
          exact Or.inr ⟨List.mem_cons_self c _, by simpa using ha⟩
        · rcases ih h2 with h3 | h4
          · exact Or.inl h3
          · exact Or.inr ⟨List.mem_cons_of_mem a h4.1, h4.2⟩

theorem normalizeWs_eq_self {l : List Char} (h : ∀ c ∈ l, isPySpace c = false) :
    normalizeWs l = l := by
  unfold normalizeWs
  rw [collapseWs_eq_self h, strip_eq_self_of h]

theorem no_newline_normalizeWs (l : List Char) : '\n' ∉ normalizeWs l := by
  intro h
  have h2 := mem_collapseWs (mem_strip h)
  rcases h2 with h3 | h4
  · exact absurd h3 (by decide)
  · exact absurd h4.2 (by decide)

theorem pySlice_eq (t : List Char) (s e : Nat) :
    pySlice t s e = (t.drop s).take (e - s) := by
  unfold pySlice
  rw [List.drop_take]

theorem length_pySlice (t : List Char) (s e : Nat) :
    (pySlice t s e).length = min e t.length - s := by
  unfold pySlice
  rw [List.length_drop, List.length_take]

theorem pySlice_subset (t : List Char) (s e : Nat) : pySlice t s e ⊆ t :=
  fun _ h => List.take_subset e t (List.drop_subset s (t.take e) h)

theorem pySlice_append (t : List Char) {a b m : Nat} (hab : a ≤ b) (hbm : b ≤ m) :
    pySlice t a b ++ pySlice t b m = pySlice t a m := by
  rw [pySlice_eq, pySlice_eq, pySlice_eq]
  have h1 : t.drop b = (t.drop a).drop (b - a) := by
    rw [List.drop_drop]
    congr 1
    omega
  rw [h1]
  have h2 : m - a = (b - a) + (m - b) := by omega
  rw [h2, List.take_add]

theorem drop_pySlice (t : List Char) (a b k : Nat) :
    (pySlice t a b).drop k = pySlice t (a + k) b := by
  unfold pySlice
  rw [List.drop_drop]

theorem pySlice_of_length_le (t : List Char) (a e : Nat) (h : t.length ≤ e) :
    pySlice t a e = t.drop a := by
  unfold pySlice
  rw [List.take_of_length_le h]

theorem pySlice_self (t : List Char) (a : Nat) : pySlice t a a = [] := by
  rw [pySlice_eq]
  simp

theorem pySlice_zero_eq_take (t : List Char) (e : Nat) : pySlice t 0 e = t.take e := by
  unfold pySlice
  rw [List.drop_zero]

theorem pySlice_replicate (n : Nat) (x : Char) (s e : Nat) :
    pySlice (List.replicate n x) s e = List.replicate (min e n - s) x := by
  unfold pySlice
  rw [List.take_replicate, List.drop_replicate]

theorem rfindAux_bound {t sub : List Char} {s : Nat} :
    ∀ {n p : Nat}, rfindAux t sub s n = some p → s ≤ p ∧ p < s + n := by
  intro n
  induction n with
  | zero => intro p h; simp [rfindAux] at h
  | succ c ih =>
    intro p h
    rw [rfindAux] at h
    by_cases hm : matchesAt t sub (s + c)
    · rw [if_pos hm] at h
      cases h
      omega
    · rw [if_neg hm] at h
      have := ih h
      omega

theorem rfind_bound {t sub : List Char} {s e p : Nat} (h : rfind t sub s e = some p) :
    s ≤ p ∧ p + sub.length ≤ e := by
  have := rfindAux_bound h
  omega

theorem rfindAux_none {t sub : List Char} {s : Nat}
    (h : ∀ p, matchesAt t sub p = false) : ∀ n, rfindAux t sub s n = none := by
  intro n
  induction n with
  | zero => rfl
  | succ c ih => rw [rfindAux, h (s + c), if_neg (by simp), ih]

theorem matchesAt_false_of_head {t : List Char} {hd : Char} (rest : List Char)
    (hn : hd ∉ t) (p : Nat) : matchesAt t (hd :: rest) p = false := by
  unfold matchesAt
  cases hdrop : t.drop p with
  | nil => rfl
  | cons c cs =>
    have hc : c ∈ t := List.drop_subset p t (hdrop ▸ List.mem_cons_self c cs)
    have hne : (hd == c) = false := by
      apply beq_false_of_ne
      intro he
      exact hn (he ▸ hc)
    simp [subMatch, hne]

theorem rfind_none_of_head {t : List Char} {hd : Char} (rest : List Char)
    (hn : hd ∉ t) (s e : Nat) : rfind t (hd :: rest) s e = none :=
  rfindAux_none (matchesAt_false_of_head rest hn) _

theorem markerFree_of_chars {t : List Char} (h1 : '.' ∉ t) (h2 : '!' ∉ t)
    (h3 : '?' ∉ t) (h4 : '\n' ∉ t) : markerFree t := by
  intro sep hsep i
  simp only [seps, List.mem_cons, List.not_mem_nil, or_false] at hsep
  rcases hsep with h | h | h | h <;> rw [h]
  · exact matchesAt_false_of_head _ h1 i
  · exact matchesAt_false_of_head _ h2 i
  · exact matchesAt_false_of_head _ h3 i
  · exact matchesAt_false_of_head _ h4 i

theorem rfind_none_of_markerFree {t : List Char} (h : markerFree t)
    {sep : List Char} (hsep : sep ∈ seps) (s e : Nat) : rfind t sep s e = none :=
  rfindAux_none (h sep hsep) _

theorem findBoundary_eq_of_markerFree {t : List Char} (h : markerFree t)
    (s e : Nat) : findBoundary t s e = e := by
  unfold findBoundary seps
  have d1 := rfind_none_of_markerFree h (show ['.', ' '] ∈ seps by simp [seps]) s e
  have d2 := rfind_none_of_markerFree h (show ['!', ' '] ∈ seps by simp [seps]) s e
  have d3 := rfind_none_of_markerFree h (show ['?', ' '] ∈ seps by simp [seps]) s e
  have d4 := rfind_none_of_markerFree h (show ['\n'] ∈ seps by simp [seps]) s e
  simp [boundaryLoop, d1, d2, d3, d4]

theorem boundaryLoop_le (t : List Char) (s e : Nat) :
    ∀ L : List (List Char), boundaryLoop t s e L ≤ e := by
  intro L
  induction L with
  | nil => exact Nat.le_refl e
  | cons sep rest ih =>
    rw [boundaryLoop]
    cases hr : rfind t sep s e with
    | none => exact ih
    | some p => exact (rfind_bound hr).2

theorem findBoundary_le (t : List Char) (s e : Nat) : findBoundary t s e ≤ e :=
  boundaryLoop_le t s e seps

theorem nextStart_lt (ov len s e : Nat) : s < nextStart ov len s e := by
  unfold nextStart
  dsimp only
  by_cases hc : e < len <;> simp only [hc, if_true, if_false] <;> split <;> omega

theorem chunkNext_lt (cs ov : Nat) (t : List Char) (start : Nat) :
    start < chunkNext cs ov t start := by
  unfold chunkNext
  exact nextStart_lt ov t.length start (chunkEnd cs t start)

theorem chunkEnd_le (cs : Nat) (t : List Char) (start : Nat) :
    chunkEnd cs t start ≤ start + cs := by
  unfold chunkEnd
  dsimp only
  split
  · exact findBoundary_le t start (start + cs)
  · exact Nat.le_refl _

theorem chunkEnd_of_markerFree {t : List Char} (hmk : markerFree t)
    (cs start : Nat) : chunkEnd cs t start = start + cs := by
  unfold chunkEnd
  dsimp only
  split
  · exact findBoundary_eq_of_markerFree hmk start (start + cs)
  · rfl

theorem length_chunkPiece_le (cs : Nat) (t : List Char) (start : Nat) :
    (chunkPiece cs t start).length ≤ cs := by
  unfold chunkPiece
  have h1 := length_strip_le (pySlice t start (chunkEnd cs t start))
  have h2 := length_pySlice t start (chunkEnd cs t start)
  have h3 := chunkEnd_le cs t start
  omega

theorem chunkPiece_of_noSpace {t : List Char} (hsp : ∀ c ∈ t, isPySpace c = false)
    (hmk : markerFree t) (cs start : Nat) :
    chunkPiece cs t start = pySlice t start (start + cs) := by
  unfold chunkPiece
  rw [chunkEnd_of_markerFree hmk]
  exact strip_eq_self_of (fun c hc => hsp c (pySlice_subset t start (start + cs) hc))

theorem chunkNext_of_markerFree {t : List Char} (hmk : markerFree t)
    (cs ov start : Nat) :
    chunkNext cs ov t start = nextStart ov t.length start (start + cs) := by
  unfold chunkNext
  rw [chunkEnd_of_markerFree hmk]

theorem chunkLoop_zero (cs ov : Nat) (t : List Char) (s : Nat) :
    chunkLoop cs ov t 0 s = [] := rfl

theorem chunkLoop_stop (cs ov : Nat) (t : List Char) {fuel s : Nat}
    (h : t.length ≤ s) : chunkLoop cs ov t fuel s = [] := by
  cases fuel with
  | zero => rfl
  | succ f => rw [chunkLoop, if_neg (by omega)]

theorem chunkLoop_succ_lt (cs ov : Nat) (t : List Char) (fuel : Nat) {start : Nat}
    (h : start < t.length) :
    chunkLoop cs ov t (fuel + 1) start =
      (if ¬(chunkPiece cs t start).isEmpty ∧ 10 < (chunkPiece cs t start).length then
        [chunkPiece cs t start]
      else []) ++ chunkLoop cs ov t fuel (chunkNext cs ov t start) := by
  rw [chunkLoop, if_pos h]

theorem chunkLoopU_stop (cs ov : Nat) (t : List Char) {s : Nat}
    (h : t.length ≤ s) : chunkLoopU cs ov t s = [] := by
  rw [chunkLoopU, dif_neg (by omega)]

theorem chunkLoopU_lt (cs ov : Nat) (t : List Char) {start : Nat}
    (h : start < t.length) :
    chunkLoopU cs ov t start =
      (if ¬(chunkPiece cs t start).isEmpty ∧ 10 < (chunkPiece cs t start).length then
        [chunkPiece cs t start]
      else []) ++ chunkLoopU cs ov t (chunkNext cs ov t start) := by
  rw [chunkLoopU, dif_pos h]

theorem mem_chunkLoop_length {cs ov : Nat} {t : List Char} :
    ∀ {fuel s : Nat} {c : List Char}, c ∈ chunkLoop cs ov t fuel s → 11 ≤ c.length := by
  intro fuel
  induction fuel with
  | zero => intro s c h; simp [chunkLoop_zero] at h
  | succ f ih =>
    intro s c h
    by_cases hs : s < t.length
    · rw [chunkLoop_succ_lt cs ov t f hs] at h
      rcases List.mem_append.mp h with h1 | h2
      · split at h1
        · rename_i hcond
          rcases List.mem_singleton.mp h1 with rfl
          omega
        · simp at h1
      · exact ih h2
    · rw [chunkLoop_stop cs ov t (by omega)] at h
      simp at h

theorem mem_chunkLoop_piece {cs ov : Nat} {t : List Char} :
    ∀ {fuel s : Nat} {c : List Char}, c ∈ chunkLoop cs ov t fuel s →
      ∃ a, c = chunkPiece cs t a := by
  intro fuel
  induction fuel with
  | zero => intro s c h; simp [chunkLoop_zero] at h
  | succ f ih =>
    intro s c h
    by_cases hs : s < t.length
    · rw [chunkLoop_succ_lt cs ov t f hs] at h
      rcases List.mem_append.mp h with h1 | h2
      · split at h1
        · rcases List.mem_singleton.mp h1 with rfl
          exact ⟨s, rfl⟩
        · simp at h1
      · exact ih h2
    · rw [chunkLoop_stop cs ov t (by omega)] at h
      simp at h

theorem chunkLoop_isPrefix_chunkLoopU (cs ov : Nat) (t : List Char) :
    ∀ (fuel s : Nat), chunkLoop cs ov t fuel s <+: chunkLoopU cs ov t s := by
  intro fuel
  induction fuel with
  | zero =>
    intro s
    rw [chunkLoop_zero]
    exact List.nil_prefix
  | succ f ih =>
    intro s
    by_cases hs : s < t.length
    · rw [chunkLoop_succ_lt cs ov t f hs, chunkLoopU_lt cs ov t hs]
      rcases ih (chunkNext cs ov t s) with ⟨r, hr⟩
      exact ⟨r, by rw [List.append_assoc, hr]⟩
    · rw [chunkLoop_stop cs ov t (by omega), chunkLoopU_stop cs ov t (by omega)]

theorem noSpace_replicate (n : Nat) : ∀ c ∈ List.replicate n 'a', isPySpace c = false := by
  intro c hc
  rw [List.eq_of_mem_replicate hc]
  decide

theorem markerFree_replicate (n : Nat) : markerFree (List.replicate n 'a') := by
  apply markerFree_of_chars <;>
    · intro h
      exact absurd (List.eq_of_mem_replicate h) (by decide)

theorem normalizeWs_replicate (n : Nat) :
    normalizeWs (List.replicate n 'a') = List.replicate n 'a' :=
  normalizeWs_eq_self (noSpace_replicate n)

theorem chunkPiece_replicate (cs n start : Nat) :
    chunkPiece cs (List.replicate n 'a') start =
      List.replicate (min (start + cs) n - start) 'a' := by
  rw [chunkPiece_of_noSpace (noSpace_replicate n) (markerFree_replicate n),
    pySlice_replicate]

theorem chunkNext_replicate (cs ov n start : Nat) :
    chunkNext cs ov (List.replicate n 'a') start =
      nextStart ov n start (start + cs) := by
  rw [chunkNext_of_markerFree (markerFree_replicate n), List.length_replicate]

theorem replicate_piece_big {k : Nat} (h : 10 < k) :
    (¬(List.replicate k 'a').isEmpty ∧ 10 < (List.replicate k 'a').length) := by
  constructor
  · simp [List.isEmpty_iff, List.replicate_eq_nil_iff]
    omega
  · rw [List.length_replicate]
    exact h

theorem chunkLoop_replicate_capped_length {cs ov N : Nat} (hcs : 10 < cs)
    (hov : cs ≤ ov) :
    ∀ fuel start, start + fuel + cs ≤ N →
      (chunkLoop cs ov (List.replicate N 'a') fuel start).length = fuel := by
  intro fuel
  induction fuel with
  | zero => intro start _; rw [chunkLoop_zero]; rfl
  | succ f ih =>
    intro start h
    rw [chunkLoop_succ_lt cs ov _ f (by rw [List.length_replicate]; omega)]
    have hmin : min (start + cs) N - start = cs := by omega
    rw [chunkPiece_replicate, hmin, if_pos (replicate_piece_big hcs)]
    have hnext : chunkNext cs ov (List.replicate N 'a') start = start + 1 := by
      rw [chunkNext_replicate]
      unfold nextStart
      dsimp only
      rw [if_pos (show start + cs < N by omega), if_pos (show start + cs - ov ≤ start by omega)]
    rw [hnext, List.length_append, ih (start + 1) (by omega)]
    simp only [List.length_singleton]
    omega

theorem chunkLoopU_replicate_length {cs ov N : Nat} (hcs : 10 < cs) (hov : cs ≤ ov) :
    ∀ k start, start + k + cs = N →
      (chunkLoopU cs ov (List.replicate N 'a') start).length = k + 1 := by
  intro k
  induction k with
  | zero =>
    intro start h
    rw [chunkLoopU_lt cs ov _ (by rw [List.length_replicate]; omega)]
    have hmin : min (start + cs) N - start = cs := by omega
    rw [chunkPiece_replicate, hmin, if_pos (replicate_piece_big hcs)]
    have hnext : chunkNext cs ov (List.replicate N 'a') start = N := by
      rw [chunkNext_replicate]
      unfold nextStart
      dsimp only
      rw [if_neg (show ¬(start + cs < N) by omega), if_neg (show ¬(start + cs ≤ start) by omega)]
      omega
    rw [hnext, chunkLoopU_stop cs ov _ (by rw [List.length_replicate])]
    rfl
  | succ k ih =>
    intro start h
    rw [chunkLoopU_lt cs ov _ (by rw [List.length_replicate]; omega)]
    have hmin : min (start + cs) N - start = cs := by omega
    rw [chunkPiece_replicate, hmin, if_pos (replicate_piece_big hcs)]
    have hnext : chunkNext cs ov (List.replicate N 'a') start = start + 1 := by
      rw [chunkNext_replicate]
      unfold nextStart
      dsimp only
      rw [if_pos (show start + cs < N by omega), if_pos (show start + cs - ov ≤ start by omega)]
    rw [hnext, List.length_append, ih (start + 1) (by omega)]
    simp only [List.length_singleton]
    omega

theorem chunkText_cap_instance :
    (chunkText 12 12 (List.replicate 1020 'a')).length = 1000 := by
  unfold chunkText
  dsimp only
  rw [normalizeWs_replicate, List.length_replicate,
    if_neg (show ¬(1020 ≤ 12) by omega)]
  exact chunkLoop_replicate_capped_length (by omega) (Nat.le_refl 12) 1000 0 (by omega)

theorem chunkTextU_cap_instance :
    (chunkTextU 12 12 (List.replicate 1020 'a')).length = 1009 := by
  unfold chunkTextU
  dsimp only
  rw [normalizeWs_replicate, List.length_replicate,
    if_neg (show ¬(1020 ≤ 12) by omega)]
  exact chunkLoopU_replicate_length (by omega) (Nat.le_refl 12) 1008 0 (by omega)

theorem chunkText_1500_instance :
    chunkText 1000 200 (List.replicate 1500 'a') =
      [List.replicate 1000 'a', List.replicate 700 'a'] := by
  unfold chunkText
  dsimp only
  rw [normalizeWs_replicate, List.length_replicate,
    if_neg (show ¬(1500 ≤ 1000) by omega)]
  have e1 : chunkLoop 1000 200 (List.replicate 1500 'a') 1000 0 =
      (if ¬(chunkPiece 1000 (List.replicate 1500 'a') 0).isEmpty ∧
          10 < (chunkPiece 1000 (List.replicate 1500 'a') 0).length then
        [chunkPiece 1000 (List.replicate 1500 'a') 0]
      else []) ++ chunkLoop 1000 200 (List.replicate 1500 'a') 999
        (chunkNext 1000 200 (List.replicate 1500 'a') 0) :=
    chunkLoop_succ_lt 1000 200 _ 999 (by rw [List.length_replicate]; omega)
  have hp1 : chunkPiece 1000 (List.replicate 1500 'a') 0 = List.replicate 1000 'a' := by
    rw [chunkPiece_replicate]
    norm_num
  have hn1 : chunkNext 1000 200 (List.replicate 1500 'a') 0 = 800 := by
    rw [chunkNext_replicate]
    unfold nextStart
    dsimp only
    rw [if_pos (show 0 + 1000 < 1500 by omega), if_neg (show ¬(0 + 1000 - 200 ≤ 0) by omega)]
  rw [e1, hp1, hn1, if_pos (replicate_piece_big (by omega))]
  have e2 : chunkLoop 1000 200 (List.replicate 1500 'a') 999 800 =
      (if ¬(chunkPiece 1000 (List.replicate 1500 'a') 800).isEmpty ∧
          10 < (chunkPiece 1000 (List.replicate 1500 'a') 800).length then
        [chunkPiece 1000 (List.replicate 1500 'a') 800]
      else []) ++ chunkLoop 1000 200 (List.replicate 1500 'a') 998
        (chunkNext 1000 200 (List.replicate 1500 'a') 800) :=
    chunkLoop_succ_lt 1000 200 _ 998 (by rw [List.length_replicate]; omega)
  have hp2 : chunkPiece 1000 (List.replicate 1500 'a') 800 = List.replicate 700 'a' := by
    rw [chunkPiece_replicate]
    norm_num
  have hn2 : chunkNext 1000 200 (List.replicate 1500 'a') 800 = 1800 := by
    rw [chunkNext_replicate]
    unfold nextStart
    dsimp only
    rw [if_neg (show ¬(800 + 1000 < 1500) by omega),
      if_neg (show ¬(800 + 1000 ≤ 800) by omega)]
  rw [e2, hp2, hn2, if_pos (replicate_piece_big (by omega)),
    chunkLoop_stop 1000 200 _ (by rw [List.length_replicate]; omega)]
  rfl

theorem joinDrop_nil (ov : Nat) : joinDrop ov [] = [] := rfl

theorem joinDrop_cons (ov : Nat) (c : List Char) (l : List (List Char)) :
    joinDrop ov (c :: l) = c.drop ov ++ joinDrop ov l := by
  simp [joinDrop]

theorem piece_cond_of_length {cs : Nat} {t : List Char} {start : Nat}
    (h : 10 < (chunkPiece cs t start).length) :
    ¬(chunkPiece cs t start).isEmpty ∧ 10 < (chunkPiece cs t start).length := by
  refine ⟨?_, h⟩
  rw [List.isEmpty_iff]
  intro he
  rw [he] at h
  simp at h

theorem piece_cond_neg_of_length {cs : Nat} {t : List Char} {start : Nat}
    (h : (chunkPiece cs t start).length ≤ 10) :
    ¬(¬(chunkPiece cs t start).isEmpty ∧ 10 < (chunkPiece cs t start).length) := by
  intro hc
  omega

theorem chunkLoop_joinDrop {cs ov : Nat} {t : List Char}
    (hsp : ∀ c ∈ t, isPySpace c = false) (hmk : markerFree t)
    (hcs : 10 < cs) (hov : ov < cs) :
    ∀ fuel start, start < t.length → 1 ≤ fuel →
      t.length ≤ start + cs + (fuel - 1) * (cs - ov) →
      ∃ m, joinDrop ov (chunkLoop cs ov t fuel start) = pySlice t (start + ov) m ∧
        start + ov ≤ m ∧ t.length - m ≤ 10 := by
  intro fuel
  induction fuel with
  | zero => intro start _ h1 _; omega
  | succ f ih =>
    intro start hs _ hlen
    rw [chunkLoop_succ_lt cs ov t f hs]
    have hpiece : chunkPiece cs t start = pySlice t start (start + cs) :=
      chunkPiece_of_noSpace hsp hmk cs start
    have hnext : chunkNext cs ov t start = nextStart ov t.length start (start + cs) :=
      chunkNext_of_markerFree hmk cs ov start
    by_cases hcase : start + cs < t.length
    · have hplen : (chunkPiece cs t start).length = cs := by
        rw [hpiece, length_pySlice]
        omega
      rw [if_pos (piece_cond_of_length (by omega))]
      have hns : chunkNext cs ov t start = start + cs - ov := by
        rw [hnext]
        unfold nextStart
        dsimp only
        rw [if_pos hcase, if_neg (show ¬(start + cs - ov ≤ start) by omega)]
      have hf : 1 ≤ f := by
        rcases Nat.eq_zero_or_pos f with h0 | h1
        · subst h0
          simp at hlen
          omega
        · exact h1
      have hrec : t.length ≤ (start + cs - ov) + cs + (f - 1) * (cs - ov) := by
        have h1 : f * (cs - ov) = (f - 1) * (cs - ov) + (cs - ov) := by
          conv_lhs => rw [show f = (f - 1) + 1 by omega]
          rw [Nat.succ_mul]
        have h2 : t.length ≤ start + cs + f * (cs - ov) := by
          simpa using hlen
        rw [h1] at h2
        omega
      obtain ⟨m, hm1, hm2, hm3⟩ := ih (start + cs - ov) (by omega) hf hrec
      have hb : start + cs - ov + ov = start + cs := by omega
      rw [hb] at hm1 hm2
      refine ⟨m, ?_, by omega, hm3⟩
      rw [List.singleton_append, joinDrop_cons, hns, hm1, hpiece, drop_pySlice]
      exact pySlice_append t (by omega) hm2
    · have hplen : (chunkPiece cs t start).length = t.length - start := by
        rw [hpiece, length_pySlice]
        omega
      have hns : chunkNext cs ov t start = start + cs := by
        rw [hnext]
        unfold nextStart
        dsimp only
        rw [if_neg hcase, if_neg (show ¬(start + cs ≤ start) by omega)]
      rw [hns, chunkLoop_stop cs ov t (by omega)]
      by_cases hbig : 10 < t.length - start
      · rw [if_pos (piece_cond_of_length (by omega))]
        refine ⟨max t.length (start + ov), ?_, Nat.le_max_right _ _, by omega⟩
        rw [List.singleton_append, joinDrop_cons, joinDrop_nil, List.append_nil, hpiece,
          drop_pySlice]
        rw [pySlice_of_length_le t _ _ (by omega),
          pySlice_of_length_le t _ _ (Nat.le_max_left _ _)]
      · rw [if_neg (piece_cond_neg_of_length (by omega))]
        exact ⟨start + ov, by rw [pySlice_self]; rfl, Nat.le_refl _, by omega⟩

theorem chunkText_reassemble {cs ov : Nat} {t : List Char}
    (hsp : ∀ c ∈ t, isPySpace c = false) (hmk : markerFree t)
    (hcs : 10 < cs) (hov : ov < cs) (hlen : t.length ≤ cs + 999 * (cs - ov)) :
    ∃ m, reassemble ov (chunkText cs ov t) = t.take m ∧ t.length - m ≤ 10 := by
  have hnorm : normalizeWs t = t := normalizeWs_eq_self hsp
  unfold chunkText
  dsimp only
  rw [hnorm]
  by_cases hshort : t.length ≤ cs
  · rw [if_pos hshort]
    by_cases hnil : t.isEmpty
    · rw [if_pos hnil]
      rw [List.isEmpty_iff] at hnil
      refine ⟨t.length, ?_, by omega⟩
      rw [hnil]
      rfl
    · rw [if_neg hnil]
      refine ⟨t.length, ?_, by omega⟩
      rw [List.take_length]
      show t ++ joinDrop ov [] = t
      rw [joinDrop_nil, List.append_nil]
  · rw [if_neg hshort]
    have hs0 : (0:Nat) < t.length := by omega
    have e1 := chunkLoop_succ_lt cs ov t 999 hs0
    have hpiece : chunkPiece cs t 0 = pySlice t 0 (0 + cs) :=
      chunkPiece_of_noSpace hsp hmk cs 0
    have hplen : (chunkPiece cs t 0).length = cs := by
      rw [hpiece, length_pySlice]
      omega
    have hns : chunkNext cs ov t 0 = 0 + cs - ov := by
      rw [chunkNext_of_markerFree hmk]
      unfold nextStart
      dsimp only
      rw [if_pos (show 0 + cs < t.length by omega),
        if_neg (show ¬(0 + cs - ov ≤ 0) by omega)]
    have hrec : t.length ≤ (0 + cs - ov) + cs + (999 - 1) * (cs - ov) := by
      have h1 : 999 * (cs - ov) = 998 * (cs - ov) + (cs - ov) := by
        rw [show (999:Nat) = 998 + 1 from rfl, Nat.succ_mul]
      rw [h1] at hlen
      show t.length ≤ (0 + cs - ov) + cs + 998 * (cs - ov)
      omega
    obtain ⟨m, hm1, hm2, hm3⟩ :=
      chunkLoop_joinDrop hsp hmk hcs hov 999 (0 + cs - ov) (by omega) (by omega) hrec
    have hb : 0 + cs - ov + ov = 0 + cs := by omega
    rw [hb] at hm1 hm2
    have h1000 : chunkLoop cs ov t 1000 0 =
        (if ¬(chunkPiece cs t 0).isEmpty ∧ 10 < (chunkPiece cs t 0).length then
          [chunkPiece cs t 0]
        else []) ++ chunkLoop cs ov t 999 (chunkNext cs ov t 0) := e1
    rw [h1000, if_pos (piece_cond_of_length (by omega)), hns]
    refine ⟨m, ?_, hm3⟩
    show chunkPiece cs t 0 ++ joinDrop ov (chunkLoop cs ov t 999 (0 + cs - ov)) = t.take m
    rw [hm1, hpiece, pySlice_append t (by omega) hm2, pySlice_zero_eq_take]

theorem zip4_map_ids {α β γ δ : Type} :
    ∀ (as : List α) (bs : List β) (gs : List γ) (ds : List δ),
      as.length = ds.length → bs.length = ds.length → gs.length = ds.length →
      (zip4 as bs gs ds).map (fun e => e.2.2.2) = ds := by
  intro as
  induction as with
  | nil =>
    intro bs gs ds h1 _ _
    cases ds with
    | nil => rfl
    | cons d ds => simp at h1
  | cons a as ih =>
    intro bs gs ds h1 h2 h3
    cases ds with
    | nil => simp at h1
    | cons d ds =>
      cases bs with
      | nil => simp at h2
      | cons b bs =>
        cases gs with
        | nil => simp at h3
        | cons g gs =>
          show d :: (zip4 as bs gs ds).map (fun e => e.2.2.2) = d :: ds
          rw [ih bs gs ds (by simpa using h1) (by simpa using h2) (by simpa using h3)]

theorem mem_zip4_meta {α β γ δ : Type} :
    ∀ (as : List α) (bs : List β) (gs : List γ) (ds : List δ) (e : α × β × γ × δ),
      e ∈ zip4 as bs gs ds → e.2.2.1 ∈ gs := by
  intro as
  induction as with
  | nil => intro bs gs ds e he; simp [zip4] at he
  | cons a as ih =>
    intro bs gs ds e he
    cases bs with
    | nil => simp [zip4] at he
    | cons b bs =>
      cases gs with
      | nil => simp [zip4] at he
      | cons g gs =>
        cases ds with
        | nil => simp [zip4] at he
        | cons d ds =>
          rcases List.mem_cons.mp he with h1 | h2
          · rw [h1]
            exact List.mem_cons_self g gs
          · exact List.mem_cons_of_mem g (ih bs gs ds e h2)

theorem lookup_setMeta (m : Metadata) (k : String) (v : MVal) :
    List.lookup k (setMeta m k v) = some v := by
  simp [setMeta, List.lookup]

theorem rfind_nl_none (t : List Char) (s e : Nat) :
    rfind (normalizeWs t) ['\n'] s e = none :=
  rfind_none_of_head [] (no_newline_normalizeWs t) s e

theorem test_normalize : normalizeWs (' ' :: 'a' :: '\n' :: '\t' :: 'b' :: [' ']) = ['a', ' ', 'b'] := by decide

theorem test_rfind : rfind ('x' :: '.' :: ' ' :: 'y' :: '.' :: ' ' :: ['z']) ['.', ' '] 0 6 = some 4 := by decide

theorem test_chunk : chunkText 1000 200 ['a', 'b', 'c'] = [['a', 'b', 'c']] := by decide

/-- C1 counterexample: the claim "every returned chunk has length ≥ 11, or
the returned sequence is empty, in particular on the short-text path" is
false: with chunkSize 1000 and overlap 200, the input "abc" normalizes to
itself, takes the short-text path, and is returned as the single chunk
"abc" of length 3 < 11 in a non-empty sequence. -/
theorem c1_short_chunk_counterexample :
    ¬(∀ (cs ov : Nat) (t : List Char), 1 ≤ cs →
      ((∀ c ∈ chunkText cs ov t, 11 ≤ c.length) ∨ chunkText cs ov t = [])) := by
  intro h
  exact absurd (h 1000 200 ['a', 'b', 'c'] (by omega)) (by decide)

/-- C1 amended: chunking is total (the embedding is a total function and
the loop body runs at most 1000 times by construction), and on the
sliding-window path — whenever the normalized text is strictly longer
than chunkSize — every returned chunk has length ≥ 11; the short-text
path instead returns the whole normalized text as one chunk, which may be
shorter than 11 characters. -/
theorem c1_chunk_min_length_amended (cs ov : Nat) (t : List Char)
    (h : cs < (normalizeWs t).length) :
    ∀ c ∈ chunkText cs ov t, 11 ≤ c.length := by
  intro c hc
  unfold chunkText at hc
  dsimp only at hc
  rw [if_neg (by omega)] at hc
  exact mem_chunkLoop_length hc

/-- C1 witness: at chunkSize 12, overlap 0, input of 25 'a' characters
(normalized length 25 > 12), every returned chunk has length ≥ 11. -/
theorem c1_chunk_min_length_witness :
    12 < (normalizeWs (List.replicate 25 'a')).length ∧
    ∀ c ∈ chunkText 12 0 (List.replicate 25 'a'), 11 ≤ c.length :=
  ⟨by decide, c1_chunk_min_length_amended 12 0 (List.replicate 25 'a') (by decide)⟩

/-- C2: the advance rule of `_chunk_text` strictly increases the start
offset on every loop pass — `new_start` is `end - overlap` when
`end < length`, `end` otherwise, forced up to `start + 1` whenever that
value would not exceed `start` — for every chunkSize, overlap (including
overlap ≥ chunkSize), text and state; hence the loop terminates on every
input. -/
theorem c2_progress_invariant :
    ∀ (cs ov : Nat) (t : List Char) (s e : Nat),
      s < nextStart ov t.length s e ∧ s < chunkNext cs ov t s :=
  fun cs ov t s e => ⟨nextStart_lt ov t.length s e, chunkNext_lt cs ov t s⟩

/-- C3: the sentence-boundary search of `_chunk_text` equals the
spec-worded search: the markers ". ", "! ", "? ", "\n" are tried in that
fixed priority order, the first marker type with any occurrence inside
the window wins with its rightmost occurrence p (the new end is
p + len(marker)), even if a later marker occurs closer to the candidate
end; when no marker occurs the end stays unchanged. -/
theorem c3_boundary_priority :
    ∀ (t : List Char) (s e : Nat), findBoundary t s e = findBoundarySpec t s e := by
  intro t s e
  unfold findBoundary findBoundarySpec seps
  cases h1 : rfind t ['.', ' '] s e with
  | some p => simp [boundaryLoop, h1]
  | none =>
    cases h2 : rfind t ['!', ' '] s e with
    | some p => simp [boundaryLoop, h1, h2]
    | none =>
      cases h3 : rfind t ['?', ' '] s e with
      | some p => simp [boundaryLoop, h1, h2, h3]
      | none =>
        cases h4 : rfind t ['\n'] s e with
        | some p => simp [boundaryLoop, h1, h2, h3, h4]
        | none => simp [boundaryLoop, h1, h2, h3, h4]

/-- C4: with chunkSize 1000 and overlap 200, an input of exactly 1500 'a'
characters produces exactly two chunks: characters [0, 1000) and
characters [800, 1500) (the second chunk starts at offset 800), and both
chunks have length ≥ 11. -/
theorem c4_example_scenario :
    chunkText 1000 200 (List.replicate 1500 'a') =
      [pySlice (List.replicate 1500 'a') 0 1000,
        pySlice (List.replicate 1500 'a') 800 1500] ∧
    ∀ c ∈ chunkText 1000 200 (List.replicate 1500 'a'), 11 ≤ c.length := by
  constructor
  · rw [chunkText_1500_instance, pySlice_replicate, pySlice_replicate]
    norm_num
  · rw [chunkText_1500_instance]
    intro c hc
    rcases List.mem_cons.mp hc with h1 | h2
    · rw [h1, List.length_replicate]
      omega
    · rcases List.mem_singleton.mp h2 with rfl
      rw [List.length_replicate]
      omega

/-- C5 counterexample: re-assembly coverage fails as stated.  With
chunkSize 12 and overlap 0, the marker-free input of 25 'a' characters
chunks into two 12-character chunks; the trailing 1-character fragment is
discarded (≤ 10 characters), so concatenating the chunks minus overlap
regions yields only 24 of the 25 normalized characters. -/
theorem c5_reassembly_counterexample :
    ¬(∀ (cs ov : Nat) (t : List Char), 1 ≤ cs → markerFree t →
      reassemble ov (chunkText cs ov t) = normalizeWs t) := by
  intro h
  exact absurd (h 12 0 (List.replicate 25 'a') (by omega) (markerFree_replicate 25))
    (by decide)

/-- C5 amended: for whitespace-free, marker-free input, with
10 < chunkSize, overlap < chunkSize, and input short enough for the
1000-pass cap, concatenating the chunks minus overlap regions
reconstructs a prefix of the normalized input that omits at most a
trailing fragment of 10 characters (the discarded short tail); no
characters are skipped before that point. -/
theorem c5_reassembly_amended (cs ov : Nat) (t : List Char)
    (hsp : ∀ c ∈ t, isPySpace c = false) (hmk : markerFree t)
    (hcs : 10 < cs) (hov : ov < cs) (hlen : t.length ≤ cs + 999 * (cs - ov)) :
    ∃ m, reassemble ov (chunkText cs ov t) = t.take m ∧ t.length - m ≤ 10 :=
  chunkText_reassemble hsp hmk hcs hov hlen

/-- C5 witness: at chunkSize 12, overlap 2, input of 30 'a' characters,
the re-assembly is a prefix of the input missing at most 10 trailing
characters. -/
theorem c5_reassembly_witness :
    10 < 12 ∧
    ∃ m, reassemble 2 (chunkText 12 2 (List.replicate 30 'a')) =
      (List.replicate 30 'a').take m ∧ (List.replicate 30 'a').length - m ≤ 10 :=
  ⟨by decide, c5_reassembly_amended 12 2 (List.replicate 30 'a')
    (noSpace_replicate 30) (markerFree_replicate 30) (by decide) (by decide) (by decide)⟩

/-- C6 counterexample: the 1000-pass safety break is a silent truncation,
not an error.  With chunkSize 12, overlap 12 and 1020 'a' characters, the
forced +1 progress makes the loop hit the cap: the capped function
returns 1000 chunks while the unbounded loop would return 1009 — yet the
capped function returns this truncated list as an ordinary success. -/
theorem c6_cap_counterexample :
    ¬(∀ (cs ov : Nat) (t : List Char), chunkText cs ov t = chunkTextU cs ov t) := by
  intro h
  have h2 := congrArg List.length (h 12 12 (List.replicate 1020 'a'))
  rw [chunkText_cap_instance, chunkTextU_cap_instance] at h2
  exact absurd h2 (by decide)

/-- C6 amended: reaching the 1000-pass cap makes `_chunk_text` break out
of the loop and return the chunks accumulated so far as an ordinary
result — a silent truncation: the returned sequence is always a prefix of
the unbounded computation's chunk sequence, never an explicit failure. -/
theorem c6_cap_prefix_amended :
    ∀ (cs ov : Nat) (t : List Char), chunkText cs ov t <+: chunkTextU cs ov t := by
  intro cs ov t
  unfold chunkText chunkTextU
  dsimp only
  by_cases hshort : (normalizeWs t).length ≤ cs
  · rw [if_pos hshort, if_pos hshort]
  · rw [if_neg hshort, if_neg hshort]
    exact chunkLoop_isPrefix_chunkLoopU cs ov (normalizeWs t) 1000 0

/-- C7: a successful `add_documents` on n chunk texts returns exactly n,
assigns the ids "d_0" … "d_(n-1)" in insertion order to the newly stored
tuples, and every newly stored metadata record carries the owning
document id under "document_id". -/
theorem c7_add_documents_contract {α : Type}
    (embedBatch : List String → Except String (List α))
    (store : List (ChromaEntry α)) (texts : List String)
    (metadatas : List Metadata) (docId : Int)
    (store2 : List (ChromaEntry α)) (n : Nat)
    (h : addDocuments embedBatch store texts metadatas docId = Except.ok (store2, n)) :
    n = texts.length ∧
    (store2.drop store.length).map (fun e => e.2.2.2) =
      (List.range texts.length).map (fun i => mkChunkId docId i) ∧
    ∀ e ∈ store2.drop store.length,
      List.lookup "document_id" e.2.2.1 = some (MVal.int docId) := by
  unfold addDocuments at h
  cases hemb : embedBatch texts with
  | error e =>
    rw [hemb] at h
    exact absurd h (by simp)
  | ok embs =>
    rw [hemb] at h
    dsimp only at h
    cases hadd : collectionAdd store embs texts
        (metadatas.map (fun m => setMeta m "document_id" (MVal.int docId)))
        ((List.range texts.length).map (fun i => mkChunkId docId i)) with
    | error e =>
      rw [hadd] at h
      exact absurd h (by simp)
    | ok s2 =>
      rw [hadd] at h
      injection h with h2
      injection h2 with hs hn
      subst hs
      subst hn
      unfold collectionAdd at hadd
      split at hadd
      · rename_i hcond
        obtain ⟨hlen1, hlen2, hlen3⟩ := hcond
        injection hadd with hs2
        refine ⟨rfl, ?_, ?_⟩
        · rw [← hs2, List.drop_left]
          refine zip4_map_ids embs texts _ _ ?_ ?_ ?_
          · simp only [List.length_map, List.length_range]
            exact hlen1
          · simp only [List.length_map, List.length_range]
          · simp only [List.length_map, List.length_range]
            simp only [List.length_map] at hlen2
            exact hlen2
        · intro e he
          rw [← hs2, List.drop_left] at he
          have hm := mem_zip4_meta embs texts _ _ e he
          rcases List.mem_map.mp hm with ⟨m0, _, hm2⟩
          rw [← hm2]
          exact lookup_setMeta m0 _ _
      · exact absurd hadd (by simp)

/-- C7 witness: adding two texts with fresh metadata under document id 7
stores ids "7_0", "7_1" in order, tags both metadata records with
document_id = 7, and returns 2. -/
theorem c7_add_documents_witness :
    2 = (["hello doc one", "hello doc two"] : List String).length ∧
    (([((0:Nat), "hello doc one", [("document_id", MVal.int 7)], "7_0"),
        ((0:Nat), "hello doc two", [("document_id", MVal.int 7)], "7_1")].drop
          ([] : List (ChromaEntry Nat)).length).map (fun e => e.2.2.2) =
      (List.range (["hello doc one", "hello doc two"] : List String).length).map
        (fun i => mkChunkId 7 i)) ∧
    ∀ e ∈ [((0:Nat), "hello doc one", [("document_id", MVal.int 7)], "7_0"),
        ((0:Nat), "hello doc two", [("document_id", MVal.int 7)], "7_1")].drop
          ([] : List (ChromaEntry Nat)).length,
      List.lookup "document_id" e.2.2.1 = some (MVal.int 7) :=
  c7_add_documents_contract (fun ts => Except.ok (ts.map (fun _ => (0:Nat))))
    ([] : List (ChromaEntry Nat)) ["hello doc one", "hello doc two"] [[], []] 7
    [((0:Nat), "hello doc one", [("document_id", MVal.int 7)], "7_0"),
      ((0:Nat), "hello doc two", [("document_id", MVal.int 7)], "7_1")] 2 rfl

/-- C8: with useContext = false, `chat_with_context` never consults the
vector index (the result does not depend on the search function), invokes
generation with no context and returns empty sources; with useContext =
true over a search that returns no results it degrades to exactly the
same ungrounded generation with empty sources, raising no error. -/
theorem c8_no_context_paths {σ : Type} (search : String → Nat → List (SearchRes σ))
    (generate : String → Option String → String) (message : String) (topK : Nat)
    (hempty : search message topK = []) :
    chatWithContext search generate message false topK =
      ⟨generate message none, []⟩ ∧
    chatWithContext search generate message true topK =
      ⟨generate message none, []⟩ ∧
    ∀ search2 : String → Nat → List (SearchRes σ),
      chatWithContext search2 generate message false topK =
        chatWithContext search generate message false topK := by
  refine ⟨rfl, ?_, fun search2 => rfl⟩
  simp [chatWithContext, hempty]

/-- C8 witness: over an empty index, both the useContext = false path and
the useContext = true path return the ungrounded generation with empty
sources, and the false path ignores the search function. -/
theorem c8_no_context_witness :
    chatWithContext (fun _ _ => ([] : List (SearchRes Nat))) (fun m _ => m)
        "hi" false 5 = ⟨"hi", []⟩ ∧
    chatWithContext (fun _ _ => ([] : List (SearchRes Nat))) (fun m _ => m)
        "hi" true 5 = ⟨"hi", []⟩ ∧
    ∀ search2 : String → Nat → List (SearchRes Nat),
      chatWithContext search2 (fun m _ => m) "hi" false 5 =
        chatWithContext (fun _ _ => ([] : List (SearchRes Nat))) (fun m _ => m)
          "hi" false 5 :=
  c8_no_context_paths (fun _ _ => ([] : List (SearchRes Nat))) (fun m _ => m) "hi" 5 rfl

/-- C9: on a non-empty ranked result list, `chat_with_context` hands the
generator the context "[1] c1\n\n[2] c2\n\n…" built from the full,
untruncated contents in rank order, returns the generator's output
verbatim as the response, and returns sources in the same rank order with
each content truncated to 200 characters plus an ellipsis and metadata
and score preserved. -/
theorem c9_context_assembly {σ : Type} (search : String → Nat → List (SearchRes σ))
    (generate : String → Option String → String) (message : String) (topK : Nat)
    (hne : search message topK ≠ []) :
    chatWithContext search generate message true topK =
      ⟨generate message (some (String.intercalate "\n\n"
          ((search message topK).enum.map
            (fun p => "[" ++ toString (p.1 + 1) ++ "] " ++ p.2.content)))),
        (search message topK).map
          (fun r => ⟨pyTake r.content 200 ++ "...", r.metadata, r.score⟩)⟩ := by
  unfold chatWithContext
  rw [if_pos rfl]
  dsimp only
  rw [if_neg (by simp [List.isEmpty_iff, hne])]
  rfl

/-- C9 witness: a single search result of content "some doc content"
yields the context "[1] some doc content", returned verbatim by a
generator that echoes its context, and one source entry with the
truncated content, metadata and score carried over. -/
theorem c9_context_assembly_witness :
    chatWithContext (fun _ _ => [(⟨"some doc content", [], 0⟩ : SearchRes Nat)])
        (fun _ c => c.getD "") "q" true 3 =
      ⟨"[1] some doc content", [⟨"some doc content" ++ "...", [], 0⟩]⟩ :=
  (c9_context_assembly (fun _ _ => [(⟨"some doc content", [], 0⟩ : SearchRes Nat)])
    (fun _ c => c.getD "") "q" 3 (by decide)).trans (by decide)

/-- C10: for chunkSize ≥ 1 every chunk `_chunk_text` returns has length
at most chunkSize and carries no leading or trailing whitespace (it is
its own strip); since normalization collapses every whitespace run —
newlines included — to a single space, no chunk contains a newline, and
the "\n" boundary-marker search can never find a match in the normalized
text. -/
theorem c10_chunk_shape (cs ov : Nat) (t : List Char) (h : 1 ≤ cs) :
    (∀ c ∈ chunkText cs ov t, c.length ≤ cs ∧ strip c = c ∧ '\n' ∉ c) ∧
    (∀ s e, rfind (normalizeWs t) ['\n'] s e = none) := by
  constructor
  · intro c hc
    unfold chunkText at hc
    dsimp only at hc
    by_cases hshort : (normalizeWs t).length ≤ cs
    · rw [if_pos hshort] at hc
      by_cases hnil : (normalizeWs t).isEmpty
      · rw [if_pos hnil] at hc
        simp at hc
      · rw [if_neg hnil] at hc
        rcases List.mem_singleton.mp hc with rfl
        refine ⟨hshort, ?_, no_newline_normalizeWs t⟩
        unfold normalizeWs
        exact strip_idem _
    · rw [if_neg hshort] at hc
      obtain ⟨a, rfl⟩ := mem_chunkLoop_piece hc
      refine ⟨length_chunkPiece_le cs _ a, ?_, ?_⟩
      · unfold chunkPiece
        exact strip_idem _
      · intro hmem
        exact no_newline_normalizeWs t (pySlice_subset _ _ _ (mem_strip hmem))
  · intro s e
    exact rfind_nl_none t s e

/-- C10 witness: at chunkSize 12, overlap 0, input of 25 'a' characters,
every chunk is at most 12 characters, already stripped, newline-free, and
the newline marker search finds nothing in the normalized text. -/
theorem c10_chunk_shape_witness :
    1 ≤ 12 ∧
    ((∀ c ∈ chunkText 12 0 (List.replicate 25 'a'),
        c.length ≤ 12 ∧ strip c = c ∧ '\n' ∉ c) ∧
      (∀ s e, rfind (normalizeWs (List.replicate 25 'a')) ['\n'] s e = none)) :=
  ⟨by decide, c10_chunk_shape 12 0 (List.replicate 25 'a') (by decide)⟩
